import Mathlib

/-!
Verification of the OGit changelog manager (`src/log_manager.rs`) and the
orchestrator fragment of `src/main.rs` that feeds it.

File contents are modelled as `List Char` (the byte/char sequence of the
file).  The filesystem state is the pair of the two log files the program
touches.  Every definition is a direct translation of the corresponding
Rust function; Rust line-iteration (`BufReader::lines`) and `str::split`
are modelled by `rustLines` and `splitNl` below.
-/

set_option autoImplicit false

namespace OGit

/-- Shorthand: the character list of a string literal. -/
def str (s : String) : List Char := s.data

/-- Whitespace test used by Rust's `str::trim` (restricted to the ASCII
whitespace characters that can occur in this program's data). -/
def isWsChar (c : Char) : Bool := c == ' ' || c == '\t' || c == '\r' || c == '\n'

/-- Model of Rust `str::trim_start`. -/
def trimLeft (cs : List Char) : List Char := cs.dropWhile isWsChar

/-- Model of Rust `str::trim_end`. -/
def trimRight (cs : List Char) : List Char := (cs.reverse.dropWhile isWsChar).reverse

/-- Model of Rust `str::trim`. -/
def trim (cs : List Char) : List Char := trimRight (trimLeft cs)

/-- Model of Rust `s.starts_with(|c| c.is_digit(10))`. -/
def startsWithDigit : List Char → Bool
  | [] => false
  | c :: _ => c.isDigit

/-- Model of Rust `str::split('\n')`: every fragment, including empty ones
and the final fragment after the last separator. -/
def splitNl : List Char → List (List Char)
  | [] => [[]]
  | c :: rest =>
    if c = '\n' then [] :: splitNl rest
    else (c :: (splitNl rest).headD []) :: (splitNl rest).tail

/-- Model of Rust `BufRead::lines` on a whole file: like `splitNl` but the
empty fragment produced by a trailing newline is not a line (and an empty
file has no lines). -/
def rustLines (cs : List Char) : List (List Char) :=
  let s := splitNl cs
  if s.getLast? = some ([] : List Char) then s.dropLast else s

/-- Join a list of lines into file content, terminating every line with a
newline (the shape produced by sequences of Rust `writeln!`). -/
def unlines (L : List (List Char)) : List Char :=
  L.foldr (fun l acc => l ++ '\n' :: acc) []

/-- The decimal digit character for `n < 10` (model of the formatting of a
single digit; the fallback value is never used). -/
def digitChar : Nat → Char
  | 0 => '0' | 1 => '1' | 2 => '2' | 3 => '3' | 4 => '4'
  | 5 => '5' | 6 => '6' | 7 => '7' | 8 => '8' | _ => '9'

/-- Fuel-driven decimal rendering (structural recursion so that the kernel
can evaluate it; the fuel is always sufficient at the call site). -/
def natStrAux : Nat → Nat → List Char
  | 0, _ => []
  | fuel + 1, n =>
    if n < 10 then [digitChar n] else natStrAux fuel (n / 10) ++ [digitChar (n % 10)]

/-- Decimal rendering of a natural number, model of Rust `format!("{}", n)`
for `usize`. -/
def natStr (n : Nat) : List Char := natStrAux (n + 1) n

/-- Model of Rust `str::starts_with` with a string pattern (used only to
build `containsSub`). -/
def startsWithList : List Char → List Char → Bool
  | [], _ => true
  | _ :: _, [] => false
  | p :: ps, c :: cs => p == c && startsWithList ps cs

/-- Model of Rust `str::contains` with a string pattern: substring test. -/
def containsSub (pat : List Char) : List Char → Bool
  | [] => startsWithList pat []
  | c :: rest => startsWithList pat (c :: rest) || containsSub pat rest

/-! ## The filesystem state

`src/log_manager.rs` works with exactly two files: `Development.md` (the
cumulative "main" log) and `TodayDevelopment.md` (the daily log).  `none`
models an absent file. -/

structure FS where
  mainLog : Option (List Char)
  todayLog : Option (List Char)
  deriving DecidableEq, Repr

/-- Content of the main log created by `check_or_create_main_log_file`
(`writeln!(file, "# 开发日志")`). -/
def mainLogHeader : List Char := str "# 开发日志" ++ ['\n']

/-- `log_manager.rs` lines 35-43: create `Development.md` with a single
header line when it does not exist; otherwise do nothing. -/
def check_or_create_main_log_file (fs : FS) : FS :=
  match fs.mainLog with
  | some _ => fs
  | none => { fs with mainLog := some mainLogHeader }

/-- The header line text `## {today}` (`format!("## {}", today)`). -/
def headerFor (today : List Char) : List Char := str "## " ++ today

/-- `log_manager.rs` lines 46-83 (`format_commit_message_for_markdown`):
single-line messages pass through; a multi-line message keeps its first
line as title and rejoins the remaining lines, dropping the blank ones. -/
def format_commit_message_for_markdown (m : List Char) : List Char :=
  if m.contains '\n' then
    let lines := splitNl m
    if lines.length = 1 then m
    else
      match lines with
      | [] => m
      | title :: rest =>
        rest.foldl (fun acc l => if (trim l).isEmpty then acc else acc ++ '\n' :: l) title
  else
    m

/-- `log_manager.rs` lines 86-97 (`create_today_log_file`): the content of
the freshly created `TodayDevelopment.md` — header line, blank line, then
`1. {formatted message}` via `writeln!`. -/
def create_today_log_file (today m : List Char) : List Char :=
  headerFor today ++ '\n' :: '\n' :: (str "1. " ++ format_commit_message_for_markdown m ++ ['\n'])

/-- One iteration of the scan loop of `check_log_file_date`
(`log_manager.rs` lines 172-184), acting on state `(date_match, log_count)`. -/
def clfdStep (hdr : List Char) (st : Bool × Nat) (line : List Char) : Bool × Nat :=
  let dm := if !st.1 && containsSub hdr line then true else st.1
  let cnt := if dm && startsWithDigit (trim line) then st.2 + 1 else st.2
  (dm, cnt)

/-- `log_manager.rs` lines 165-187 (`check_log_file_date`): scan the lines
of the today-log content, recording whether some line contains
`## {today}` and counting, from that point on, the lines whose trimmed
form starts with a decimal digit. -/
def check_log_file_date (today content : List Char) : Bool × Nat :=
  (rustLines content).foldl (clfdStep (headerFor today)) (false, 0)

/-- `log_manager.rs` lines 107-133: the bytes appended to
`TodayDevelopment.md` for a new entry with ordinal `n` in the date-match
branch of `update_today_log_file`. -/
def append_entry_bytes (n : Nat) (m : List Char) : List Char :=
  let formatted := format_commit_message_for_markdown m
  let lines := splitNl formatted
  if lines.length = 1 then
    natStr n ++ str ". " ++ formatted ++ ['\n']
  else
    match lines with
    | [] => []
    | first :: rest =>
      (natStr n ++ str ". " ++ first ++ ['\n']) ++
        rest.foldl
          (fun acc l => if (trim l).isEmpty then acc else acc ++ (str "   " ++ l ++ ['\n'])) []

/-- `log_manager.rs` lines 100-156 (`update_today_log_file`).  The `Bool`
result records whether the `fs::copy` fallback branch (line 147, taken
when `Development.md` does not exist at rollover) was used. -/
def update_today_log_file (today m : List Char) (fs : FS) : FS × Bool :=
  match fs.todayLog with
  | none => (fs, false)
  | some tc =>
    let r := check_log_file_date today tc
    if r.1 then
      ({ fs with todayLog := some (tc ++ append_entry_bytes (r.2 + 1) m) }, false)
    else
      match fs.mainLog with
      | some mc =>
        ({ mainLog := some (mc ++ '\n' :: tc),
           todayLog := some (create_today_log_file today m) }, false)
      | none =>
        ({ mainLog := some tc,
           todayLog := some (create_today_log_file today m) }, true)

/-- `log_manager.rs` lines 18-32 (`update_log_files`), the public entry
point: ensure the main log exists, then create or update the today log.
The `Bool` result is the fallback flag of `update_today_log_file`. -/
def update_log_files (today m : List Char) (fs : FS) : FS × Bool :=
  let fs1 := check_or_create_main_log_file fs
  match fs1.todayLog with
  | none => ({ fs1 with todayLog := some (create_today_log_file today m) }, false)
  | some _ => update_today_log_file today m fs1

/-- A sequence of `record_entry` calls with the same date. -/
def run_entries (today : List Char) (msgs : List (List Char)) (fs : FS) : FS :=
  msgs.foldl (fun s m => (update_log_files today m s).1) fs

/-! ## Error propagation model

`update_log_files` wraps each step with an `anyhow` context string
(`log_manager.rs` lines 22, 26, 28) and `main.rs` line 188 adds one more.
Filesystem failures are modelled by injection: `f1`, `f2`, `f3` optionally
carry the I/O error text raised inside the corresponding step.  An error
is a context chain, outermost description first. -/

def ctxMainLog : String := "检查或创建主日志文件失败"
def ctxCreateToday : String := "创建今日日志文件失败"
def ctxUpdateToday : String := "更新今日日志文件失败"
def ctxUpdateLogs : String := "更新日志文件时出错"

/-- `update_log_files` with failure injection: `f1` fails
`check_or_create_main_log_file`, `f2` fails `create_today_log_file`, `f3`
fails `update_today_log_file`.  Each failure is wrapped with the context
string the Rust code attaches to that step. -/
def update_log_files_e (today m : List Char) (fs : FS)
    (f1 f2 f3 : Option String) : Except (List String) FS :=
  match f1 with
  | some e => .error [ctxMainLog, e]
  | none =>
    let fs1 := check_or_create_main_log_file fs
    match fs1.todayLog with
    | none =>
      match f2 with
      | some e => .error [ctxCreateToday, e]
      | none => .ok { fs1 with todayLog := some (create_today_log_file today m) }
    | some _ =>
      match f3 with
      | some e => .error [ctxUpdateToday, e]
      | none => .ok (update_today_log_file today m fs1).1

/-- Observable VCS actions of the orchestrator (`main.rs` lines 188-205):
a commit attempt carries the exact message string handed to `git commit`. -/
inductive Action where
  | commit (msg : List Char) : Action
  | push : Action
  deriving DecidableEq, Repr

/-- `main.rs` lines 145-149: append the CI-skip marker to the commit
message exactly when CI is disabled and a workflow configuration was
detected. -/
def final_commit_message (ciEnabled hasWorkflows : Bool) (m : List Char) : List Char :=
  if !ciEnabled && hasWorkflows then m ++ str " [skip ci]" else m

/-- The orchestrator tail of `main` (`main.rs` lines 145-205): compute the
final commit message, run `update_log_files` on it (wrapping its error with
one more context), and only on success — and only when pushing — attempt
`git commit` and `git push` (whose failures are injected via `gc`, `gp`).
The returned list records the VCS actions that were attempted. -/
def main_run (ciEnabled hasWorkflows pushFlag : Bool) (m today : List Char) (fs : FS)
    (f1 f2 f3 gc gp : Option String) : List Action × Except (List String) FS :=
  let finalMsg := final_commit_message ciEnabled hasWorkflows m
  match update_log_files_e today finalMsg fs f1 f2 f3 with
  | .error es => ([], .error (ctxUpdateLogs :: es))
  | .ok fs1 =>
    if pushFlag then
      match gc with
      | some e => ([Action.commit finalMsg], .error ["Git提交操作失败", e])
      | none =>
        match gp with
        | some e => ([Action.commit finalMsg, Action.push], .error ["推送操作失败", e])
        | none => ([Action.commit finalMsg, Action.push], .ok fs1)
    else
      ([], .ok fs1)

/-! ## Derived views of the code used to state the claims -/

/-- The lines of the formatted commit message: the whole message if it is
single-line, otherwise its first line followed by its non-blank remaining
lines (what `format_commit_message_for_markdown` produces, viewed as
lines). -/
def formatLines (m : List Char) : List (List Char) :=
  if m.contains '\n' then
    match splitNl m with
    | [] => [m]
    | title :: rest => title :: rest.filter (fun l => !(trim l).isEmpty)
  else [m]

/-- A message is scan-safe when no continuation line of its formatted form
starts, after trimming, with a decimal digit. -/
def msgOk (m : List Char) : Bool :=
  (formatLines m).tail.all (fun l => !startsWithDigit (trim l))

/-- The ordinal prefixes of the top-level entry lines of a line list: for
each line whose trimmed form starts with a digit, its leading digit run. -/
def ordinals (L : List (List Char)) : List (List Char) :=
  (L.filter (fun l => startsWithDigit (trim l))).map (fun l => (trim l).takeWhile Char.isDigit)

/-- The lines appended by the date-match branch of `update_today_log_file`
for ordinal `n`: continuation lines are indented with three spaces. -/
def appendEntryLines (n : Nat) (m : List Char) : List (List Char) :=
  match formatLines m with
  | [] => []
  | f :: fs => (natStr n ++ str ". " ++ f) :: fs.map (fun l => str "   " ++ l)

/-- The entry lines written by `create_today_log_file` (ordinal `1`,
continuation lines written verbatim, without indentation). -/
def createEntryLines (m : List Char) : List (List Char) :=
  match formatLines m with
  | [] => []
  | f :: fs => (str "1. " ++ f) :: fs

/-- The glue the formatting fold builds from the kept continuation lines:
each line preceded by one newline (separator, not terminator). -/
def glueTail : List (List Char) → List Char
  | [] => []
  | l :: ls => '\n' :: (l ++ glueTail ls)

/-- Shape invariant of `TodayDevelopment.md` after `k` same-day entries:
the content is the date header line, a blank line, then entry lines `L`
whose top-level ordinals read `1`, `2`, …, `k`. -/
def Inv (today : List Char) (k : Nat) (C : List Char) : Prop :=
  ∃ L : List (List Char),
    C = unlines (headerFor today :: ([] : List Char) :: L) ∧
    (∀ l ∈ L, '\n' ∉ l) ∧
    ordinals L = (List.range k).map (fun i => natStr (i + 1))

/-! ## Sanity checks on concrete data (spec §8 scenarios) -/

example :
    create_today_log_file (str "2024/01/15") (str "fix: bug")
      = str "## 2024/01/15\n\n1. fix: bug\n" := by decide

example :
    check_log_file_date (str "2024/01/15") (str "## 2024/01/15\n\n1. fix: bug\n")
      = (true, 1) := by decide

example :
    check_log_file_date (str "2024/01/16") (str "## 2024/01/15\n\n1. fix: bug\n")
      = (false, 0) := by decide

example :
    append_entry_bytes 2 (str "feat: X\na\n\nb") = str "2. feat: X\n   a\n   b\n" := by
  decide

/-! ## Line-splitting lemmas -/

theorem splitNl_ne_nil (cs : List Char) : splitNl cs ≠ [] := by
  cases cs with
  | nil => simp [splitNl]
  | cons c rest => simp only [splitNl]; split <;> simp

theorem splitNl_cons_newline (rest : List Char) :
    splitNl ('\n' :: rest) = [] :: splitNl rest := by
  simp [splitNl]

theorem splitNl_cons_other {c : Char} (hc : c ≠ '\n') (rest : List Char) :
    splitNl (c :: rest) = (c :: (splitNl rest).headD []) :: (splitNl rest).tail := by
  simp [splitNl, hc]

theorem not_newline_mem_splitNl (cs : List Char) :
    ∀ l ∈ splitNl cs, '\n' ∉ l := by
  induction cs with
  | nil => intro l hl; simp [splitNl] at hl; simp [hl]
  | cons c rest ih =>
    intro l hl
    obtain ⟨l0, ls, h⟩ := List.exists_cons_of_ne_nil (splitNl_ne_nil rest)
    simp only [splitNl, h] at hl
    by_cases hc : c = '\n'
    · simp [hc] at hl
      rcases hl with hl | hl
      · simp [hl]
      · exact ih l (by rw [h]; exact List.mem_cons.mpr hl)
    · simp [hc] at hl
      rcases hl with hl | hl
      · subst hl
        intro hmem
        rcases List.mem_cons.mp hmem with h1 | h1
        · exact hc h1.symm
        · exact ih l0 (by simp [h]) h1
      · exact ih l (by rw [h]; exact List.mem_cons.mpr (Or.inr hl))

theorem splitNl_of_not_mem {cs : List Char} (h : '\n' ∉ cs) : splitNl cs = [cs] := by
  induction cs with
  | nil => rfl
  | cons c rest ih =>
    have hc : c ≠ '\n' := fun hc => h (by simp [hc])
    have hr : '\n' ∉ rest := fun hm => h (by simp [hm])
    simp [splitNl, ih hr, hc]

theorem splitNl_append_newline {t : List Char} (z : List Char) (h : '\n' ∉ t) :
    splitNl (t ++ '\n' :: z) = t :: splitNl z := by
  induction t with
  | nil => simp [splitNl]
  | cons c t ih =>
    have hc : c ≠ '\n' := fun hc => h (by simp [hc])
    have ht : '\n' ∉ t := fun hm => h (by simp [hm])
    simp [List.cons_append, splitNl, ih ht, hc]

theorem splitNl_append_head {a : List Char} (X : List Char) (h : '\n' ∉ a)
    {l : List Char} {ls : List (List Char)} (hX : splitNl X = l :: ls) :
    splitNl (a ++ X) = (a ++ l) :: ls := by
  induction a with
  | nil => simpa using hX
  | cons c a ih =>
    have hc : c ≠ '\n' := fun hc => h (by simp [hc])
    have ha : '\n' ∉ a := fun hm => h (by simp [hm])
    simp [List.cons_append, splitNl, ih ha, hc]

theorem unlines_append (A B : List (List Char)) :
    unlines (A ++ B) = unlines A ++ unlines B := by
  induction A with
  | nil => rfl
  | cons l A ih => simp [unlines, List.foldr_cons] at ih ⊢; simp [ih]

theorem unlines_splitNl (X : List Char) : unlines (splitNl X) = X ++ ['\n'] := by
  induction X with
  | nil => rfl
  | cons c X ih =>
    by_cases hc : c = '\n'
    · subst hc
      simp only [splitNl, if_pos rfl]
      show '\n' :: unlines (splitNl X) = ('\n' :: X) ++ ['\n']
      rw [ih]
      simp
    · obtain ⟨l, ls, h⟩ := List.exists_cons_of_ne_nil (splitNl_ne_nil X)
      rw [h] at ih
      simp only [splitNl, if_neg hc, h, List.headD_cons, List.tail_cons]
      show (c :: l) ++ '\n' :: unlines ls = (c :: X) ++ ['\n']
      have hih : l ++ '\n' :: unlines ls = X ++ ['\n'] := ih
      simp only [List.cons_append]
      rw [hih]

theorem splitNl_unlines {L : List (List Char)} (h : ∀ l ∈ L, '\n' ∉ l) :
    splitNl (unlines L) = L ++ [[]] := by
  induction L with
  | nil => rfl
  | cons l L ih =>
    have hl : '\n' ∉ l := h l (by simp)
    have hL : ∀ x ∈ L, '\n' ∉ x := fun x hx => h x (by simp [hx])
    show splitNl (l ++ '\n' :: unlines L) = (l :: L) ++ [[]]
    rw [splitNl_append_newline _ hl, ih hL]
    simp

theorem rustLines_unlines {L : List (List Char)} (h : ∀ l ∈ L, '\n' ∉ l) :
    rustLines (unlines L) = L := by
  unfold rustLines
  rw [splitNl_unlines h]
  simp

/-! ## Trim and digit lemmas -/

theorem dropWhile_append_not {p : Char → Bool} {c : Char} (hc : p c = false)
    (a y : List Char) : (a ++ c :: y).dropWhile p = a.dropWhile p ++ c :: y := by
  induction a with
  | nil => simp [List.dropWhile_cons, hc]
  | cons x a ih =>
    by_cases hx : p x = true
    · simp [List.dropWhile_cons, hx, ih]
    · simp [List.dropWhile_cons, hx]

theorem trimLeft_cons {c : Char} (x : List Char) (hc : isWsChar c = false) :
    trimLeft (c :: x) = c :: x := by
  simp [trimLeft, List.dropWhile_cons, hc]

theorem trimRight_cons {c : Char} (x : List Char) (hc : isWsChar c = false) :
    trimRight (c :: x) = c :: trimRight x := by
  unfold trimRight
  rw [List.reverse_cons, dropWhile_append_not hc _ [], List.reverse_append]
  simp

theorem trim_cons {c : Char} (x : List Char) (hc : isWsChar c = false) :
    trim (c :: x) = c :: trimRight x := by
  unfold trim
  rw [trimLeft_cons x hc, trimRight_cons x hc]

theorem startsWithDigit_trim_cons {c : Char} (x : List Char) (hc : isWsChar c = false) :
    startsWithDigit (trim (c :: x)) = c.isDigit := by
  rw [trim_cons x hc]; rfl

theorem isWsChar_of_isDigit {c : Char} (h : c.isDigit = true) : isWsChar c = false := by
  have h1 : c ≠ ' ' := by rintro rfl; exact absurd h (by decide)
  have h2 : c ≠ '\t' := by rintro rfl; exact absurd h (by decide)
  have h3 : c ≠ '\r' := by rintro rfl; exact absurd h (by decide)
  have h4 : c ≠ '\n' := by rintro rfl; exact absurd h (by decide)
  simp [isWsChar, h1, h2, h3, h4]

theorem trim_indent (f : List Char) : trim (str "   " ++ f) = trim f := by
  have hs : str "   " ++ f = ' ' :: ' ' :: ' ' :: f := rfl
  rw [hs]
  unfold trim trimLeft
  simp [List.dropWhile_cons, show isWsChar ' ' = true from rfl]

theorem takeWhile_append_not {p : Char → Bool} {a : List Char}
    (ha : ∀ c ∈ a, p c = true) {d : Char} (hd : p d = false) (r : List Char) :
    (a ++ d :: r).takeWhile p = a := by
  induction a with
  | nil => simp [List.takeWhile_cons, hd]
  | cons x a ih =>
    have hx : p x = true := ha x (by simp)
    simp [List.takeWhile_cons, hx, ih (fun c hc => ha c (by simp [hc]))]

theorem trimRight_append_not {c : Char} (hc : isWsChar c = false) (a r : List Char) :
    trimRight (a ++ c :: r) = a ++ c :: trimRight r := by
  unfold trimRight
  rw [List.reverse_append, List.reverse_cons, List.append_assoc,
    List.singleton_append, dropWhile_append_not hc, List.reverse_append]
  simp

theorem trim_ordinal_line {a : List Char} (hne : a ≠ [])
    (ha : ∀ c ∈ a, c.isDigit = true) (r : List Char) :
    trim (a ++ '.' :: r) = a ++ '.' :: trimRight r := by
  obtain ⟨c, a0, rfl⟩ := List.exists_cons_of_ne_nil hne
  have hcd : c.isDigit = true := ha c (by simp)
  unfold trim
  rw [List.cons_append, trimLeft_cons _ (isWsChar_of_isDigit hcd), ← List.cons_append,
    trimRight_append_not (by decide)]

theorem startsWithDigit_ordinal_line {a : List Char} (hne : a ≠ [])
    (ha : ∀ c ∈ a, c.isDigit = true) (r : List Char) :
    startsWithDigit (trim (a ++ '.' :: r)) = true := by
  rw [trim_ordinal_line hne ha]
  obtain ⟨c, a0, rfl⟩ := List.exists_cons_of_ne_nil hne
  simp [startsWithDigit, ha c (by simp)]

theorem takeWhile_ordinal_line {a : List Char} (hne : a ≠ [])
    (ha : ∀ c ∈ a, c.isDigit = true) (r : List Char) :
    (trim (a ++ '.' :: r)).takeWhile Char.isDigit = a := by
  rw [trim_ordinal_line hne ha]
  exact takeWhile_append_not ha (by decide) _

/-! ## Decimal rendering lemmas -/

theorem natStrAux_congr (n : Nat) : ∀ f1 f2 : Nat, n < f1 → n < f2 →
    natStrAux f1 n = natStrAux f2 n := by
  induction n using Nat.strong_induction_on with
  | _ n ih =>
    intro f1 f2 h1 h2
    match f1, f2 with
    | a + 1, b + 1 =>
      by_cases hn : n < 10
      · simp [natStrAux, hn]
      · have hd : n / 10 < n := Nat.div_lt_self (by omega) (by omega)
        simp only [natStrAux, if_neg hn]
        rw [ih (n / 10) hd a b (by omega) (by omega)]

theorem natStr_unfold (n : Nat) :
    natStr n = if n < 10 then [digitChar n] else natStr (n / 10) ++ [digitChar (n % 10)] := by
  have hstep : natStrAux (n + 1) n =
      if n < 10 then [digitChar n] else natStrAux n (n / 10) ++ [digitChar (n % 10)] := rfl
  unfold natStr
  rw [hstep]
  by_cases hn : n < 10
  · simp [hn]
  · have hd : n / 10 < n := Nat.div_lt_self (by omega) (by omega)
    rw [if_neg hn, if_neg hn,
      natStrAux_congr (n / 10) n (n / 10 + 1) (by omega) (by omega)]

theorem digitChar_isDigit (n : Nat) : (digitChar n).isDigit = true :=
  match n with
  | 0 => by decide
  | 1 => by decide
  | 2 => by decide
  | 3 => by decide
  | 4 => by decide
  | 5 => by decide
  | 6 => by decide
  | 7 => by decide
  | 8 => by decide
  | _ + 9 => rfl

theorem natStr_digits (n : Nat) : ∀ c ∈ natStr n, c.isDigit = true := by
  induction n using Nat.strong_induction_on with
  | _ n ih =>
    intro c hc
    rw [natStr_unfold] at hc
    by_cases hn : n < 10
    · rw [if_pos hn] at hc
      simp at hc
      rw [hc]; exact digitChar_isDigit n
    · rw [if_neg hn] at hc
      simp at hc
      rcases hc with hc | hc
      · exact ih (n / 10) (Nat.div_lt_self (by omega) (by omega)) c hc
      · rw [hc]; exact digitChar_isDigit (n % 10)

theorem natStr_ne_nil (n : Nat) : natStr n ≠ [] := by
  rw [natStr_unfold]
  by_cases hn : n < 10 <;> simp [hn]

theorem not_newline_natStr (n : Nat) : '\n' ∉ natStr n := by
  intro hmem
  exact absurd (natStr_digits n '\n' hmem) (by decide)

/-! ## Substring-test lemmas -/

theorem startsWithList_iff (p : List Char) : ∀ c : List Char,
    startsWithList p c = true ↔ p <+: c := by
  induction p with
  | nil =>
    intro c
    constructor
    · intro _; exact List.nil_prefix
    · intro _; rfl
  | cons x p ih =>
    intro c
    cases c with
    | nil =>
      constructor
      · intro h
        rw [show startsWithList (x :: p) [] = false from rfl] at h
        exact absurd h (by simp)
      · rintro ⟨t, ht⟩
        simp at ht
    | cons y c =>
      rw [show startsWithList (x :: p) (y :: c) = (x == y && startsWithList p c) from rfl,
        Bool.and_eq_true, beq_iff_eq, ih c]
      exact (List.cons_prefix_cons).symm

theorem containsSub_iff (p : List Char) : ∀ c : List Char,
    containsSub p c = true ↔ p <:+: c := by
  intro c
  induction c with
  | nil =>
    rw [show containsSub p [] = startsWithList p [] from rfl, startsWithList_iff]
    constructor
    · rintro ⟨t, ht⟩
      have hp : p = [] := by
        cases p with
        | nil => rfl
        | cons a b => simp at ht
      rw [hp]
    · rintro ⟨s, t, hst⟩
      have hp : p = [] := by
        rcases List.append_eq_nil.mp hst with ⟨h1, -⟩
        exact (List.append_eq_nil.mp h1).2
      rw [hp]
  | cons y c ih =>
    rw [show containsSub p (y :: c) = (startsWithList p (y :: c) || containsSub p c) from rfl,
      Bool.or_eq_true, startsWithList_iff, ih]
    exact (List.infix_cons_iff).symm

theorem containsSub_refl (l : List Char) : containsSub l l = true :=
  (containsSub_iff l l).mpr (List.infix_refl l)

/-! ## Scan-fold lemmas for `check_log_file_date` -/

theorem clfd_fst (h : List Char) (L : List (List Char)) : ∀ st : Bool × Nat,
    (L.foldl (clfdStep h) st).1 = (st.1 || L.any (fun l => containsSub h l)) := by
  induction L with
  | nil => intro st; simp
  | cons l L ih =>
    intro st
    rw [List.foldl_cons, ih]
    cases hst : st.1 <;> cases hc : containsSub h l <;>
      simp [clfdStep, hst, hc, List.any_cons]

theorem clfd_count (h : List Char) (L : List (List Char)) : ∀ c : Nat,
    L.foldl (clfdStep h) (true, c) = (true, c + L.countP (fun l => startsWithDigit (trim l))) := by
  induction L with
  | nil => intro c; simp
  | cons l L ih =>
    intro c
    rw [List.foldl_cons]
    have hstep : clfdStep h (true, c) l =
        (true, if startsWithDigit (trim l) then c + 1 else c) := by
      simp [clfdStep]
    rw [hstep]
    by_cases hd : startsWithDigit (trim l) = true
    · rw [if_pos hd, ih, List.countP_cons, if_pos hd]
      congr 1
      omega
    · rw [if_neg hd, ih, List.countP_cons, if_neg hd]
      simp

/-! ## Structure of the formatted message -/

theorem contains_newline_iff (m : List Char) : m.contains '\n' = true ↔ '\n' ∈ m := by
  simp [List.contains]

theorem splitNl_length_ge_two {m : List Char} (h : '\n' ∈ m) :
    2 ≤ (splitNl m).length := by
  induction m with
  | nil => simp at h
  | cons c rest ih =>
    by_cases hc : c = '\n'
    · subst hc
      rw [splitNl_cons_newline, List.length_cons]
      have h1 : 0 < (splitNl rest).length :=
        List.length_pos.mpr (splitNl_ne_nil rest)
      omega
    · have hm : '\n' ∈ rest := by
        rcases List.mem_cons.mp h with h1 | h1
        · exact absurd h1.symm hc
        · exact h1
      obtain ⟨l, ls, he⟩ := List.exists_cons_of_ne_nil (splitNl_ne_nil rest)
      have h2 := ih hm
      rw [he] at h2
      simp only [splitNl, if_neg hc, he, List.headD_cons, List.tail_cons, List.length_cons]
      simp at h2
      omega

theorem foldl_format (rest : List (List Char)) : ∀ t : List Char,
    rest.foldl (fun acc l => if (trim l).isEmpty then acc else acc ++ '\n' :: l) t
      = t ++ glueTail (rest.filter (fun l => !(trim l).isEmpty)) := by
  induction rest with
  | nil => intro t; simp [glueTail]
  | cons l rest ih =>
    intro t
    rw [List.foldl_cons]
    by_cases hb : (trim l).isEmpty = true
    · rw [if_pos hb, ih, List.filter_cons]
      simp [hb]
    · rw [if_neg hb, ih, List.filter_cons]
      simp only [hb, Bool.not_false, if_pos]
      show (t ++ '\n' :: l) ++ glueTail _ = t ++ '\n' :: (l ++ glueTail _)
      simp [List.append_assoc]

theorem splitNl_glueTail : ∀ (ls : List (List Char)) (t : List Char), '\n' ∉ t →
    (∀ l ∈ ls, '\n' ∉ l) → splitNl (t ++ glueTail ls) = t :: ls := by
  intro ls
  induction ls with
  | nil => intro t ht _; simp [glueTail, splitNl_of_not_mem ht]
  | cons l ls ih =>
    intro t ht hls
    show splitNl (t ++ ('\n' :: (l ++ glueTail ls))) = t :: l :: ls
    rw [splitNl_append_newline _ ht,
      ih l (hls l (by simp)) (fun x hx => hls x (by simp [hx]))]

theorem splitNl_format (m : List Char) :
    splitNl (format_commit_message_for_markdown m) = formatLines m := by
  unfold format_commit_message_for_markdown formatLines
  by_cases hc : m.contains '\n'
  · have hmem : '\n' ∈ m := (contains_newline_iff m).mp hc
    obtain ⟨t, ls, he⟩ := List.exists_cons_of_ne_nil (splitNl_ne_nil m)
    have hlen := splitNl_length_ge_two hmem
    rw [he] at hlen
    simp only [List.length_cons] at hlen
    have hne : ¬((t :: ls).length = 1) := by
      simp only [List.length_cons]
      omega
    simp only [hc, if_true, he, hne, if_false, if_neg hne]
    rw [foldl_format ls t]
    exact splitNl_glueTail _ t
      (not_newline_mem_splitNl m t (he ▸ List.mem_cons_self t ls))
      (fun l hl => not_newline_mem_splitNl m l
        (he ▸ List.mem_cons.mpr (Or.inr (List.mem_of_mem_filter hl))))
  · have hmem : '\n' ∉ m := fun h => hc ((contains_newline_iff m).mpr h)
    simp only [hc, if_false]
    exact splitNl_of_not_mem hmem

theorem formatLines_ne_nil (m : List Char) : formatLines m ≠ [] := by
  rw [← splitNl_format]
  exact splitNl_ne_nil _

theorem not_newline_mem_formatLines (m : List Char) :
    ∀ l ∈ formatLines m, '\n' ∉ l := by
  rw [← splitNl_format]
  exact not_newline_mem_splitNl _

theorem formatLines_tail_not_blank (m : List Char) :
    ∀ l ∈ (formatLines m).tail, (trim l).isEmpty = false := by
  unfold formatLines
  by_cases hc : m.contains '\n'
  · simp only [hc, if_true]
    obtain ⟨t, ls, he⟩ := List.exists_cons_of_ne_nil (splitNl_ne_nil m)
    rw [he]
    intro l hl
    simp only [List.tail_cons] at hl
    have := List.of_mem_filter hl
    simpa using this
  · rw [if_neg hc]
    simp

theorem contains_of_formatLines_cons {m f : List Char} {fs : List (List Char)}
    (he : formatLines m = f :: fs) (hfs : fs ≠ []) : m.contains '\n' = true := by
  by_cases hc : m.contains '\n'
  · exact hc
  · exfalso
    unfold formatLines at he
    simp only [hc, if_false] at he
    cases he
    exact hfs rfl

/-! ## Entry bytes as line lists -/

theorem format_single {m f : List Char} (hX : splitNl (format_commit_message_for_markdown m) = [f]) :
    format_commit_message_for_markdown m = f := by
  have h1 := unlines_splitNl (format_commit_message_for_markdown m)
  rw [hX] at h1
  have h2 : f ++ ['\n'] = format_commit_message_for_markdown m ++ ['\n'] := by
    simpa [unlines] using h1
  exact ((List.append_left_inj _).mp h2).symm

theorem create_eq_unlines (today m : List Char) :
    create_today_log_file today m = unlines ([headerFor today, []] ++ createEntryLines m) := by
  obtain ⟨f, fs, he⟩ := List.exists_cons_of_ne_nil (formatLines_ne_nil m)
  have hX : splitNl (format_commit_message_for_markdown m) = f :: fs := by
    rw [splitNl_format, he]
  have h1 : splitNl (str "1. " ++ format_commit_message_for_markdown m)
      = (str "1. " ++ f) :: fs := splitNl_append_head _ (by decide) hX
  have h2 : unlines ((str "1. " ++ f) :: fs)
      = str "1. " ++ format_commit_message_for_markdown m ++ ['\n'] := by
    rw [← h1, unlines_splitNl]
  have h3 : unlines [headerFor today, []] = headerFor today ++ ['\n', '\n'] := by
    simp [unlines]
  unfold create_today_log_file createEntryLines
  rw [he, unlines_append, h2, h3]
  simp [List.append_assoc]

theorem foldl_indent (fs : List (List Char))
    (hfs : ∀ l ∈ fs, (trim l).isEmpty = false) : ∀ init : List Char,
    fs.foldl (fun acc l => if (trim l).isEmpty then acc else acc ++ (str "   " ++ l ++ ['\n']))
        init
      = init ++ unlines (fs.map (fun l => str "   " ++ l)) := by
  induction fs with
  | nil => intro init; simp [unlines]
  | cons l fs ih =>
    intro init
    have hl : (trim l).isEmpty = false := hfs l (by simp)
    rw [List.foldl_cons, if_neg (by simp [hl]),
      ih (fun x hx => hfs x (by simp [hx]))]
    show (init ++ (str "   " ++ l ++ ['\n'])) ++ _
      = init ++ ((str "   " ++ l) ++ '\n' :: unlines _)
    simp [List.append_assoc]

theorem append_eq_unlines (n : Nat) (m : List Char) :
    append_entry_bytes n m = unlines (appendEntryLines n m) := by
  obtain ⟨f, fs, he⟩ := List.exists_cons_of_ne_nil (formatLines_ne_nil m)
  have hX : splitNl (format_commit_message_for_markdown m) = f :: fs := by
    rw [splitNl_format, he]
  unfold append_entry_bytes appendEntryLines
  simp only [hX, he]
  by_cases hfs : fs = []
  · subst hfs
    have hf : format_commit_message_for_markdown m = f := format_single hX
    rw [if_pos (by simp), hf]
    simp [unlines, List.append_assoc]
  · have hlen : ¬((f :: fs).length = 1) := by
      have : fs.length ≠ 0 := fun h0 => hfs (List.length_eq_zero.mp h0)
      simp only [List.length_cons]
      omega
    rw [if_neg hlen]
    have hnb : ∀ l ∈ fs, (trim l).isEmpty = false := by
      intro l hl
      exact formatLines_tail_not_blank m l (by rw [he]; simpa using hl)
    rw [foldl_indent fs hnb []]
    show _ = (natStr n ++ str ". " ++ f) ++ '\n' :: unlines _
    simp [List.append_assoc]

theorem check_fst_eq_any (today content : List Char) :
    (check_log_file_date today content).1 =
      (rustLines content).any (fun l => containsSub (headerFor today) l) := by
  unfold check_log_file_date
  rw [clfd_fst]
  simp

theorem not_newline_headerFor {today : List Char} (ht : '\n' ∉ today) :
    '\n' ∉ headerFor today := by
  intro hmem
  unfold headerFor str at hmem
  rcases List.mem_append.mp hmem with h | h
  · exact absurd h (by decide)
  · exact ht h

theorem startsWithDigit_trim_headerFor (today : List Char) :
    startsWithDigit (trim (headerFor today)) = false := by
  have : headerFor today = '#' :: ('#' :: ' ' :: today) := rfl
  rw [this, startsWithDigit_trim_cons _ (by decide)]
  decide

theorem check_unlines (today : List Char) (L : List (List Char))
    (ht : '\n' ∉ today) (hL : ∀ l ∈ L, '\n' ∉ l) :
    check_log_file_date today (unlines (headerFor today :: L)) =
      (true, L.countP (fun l => startsWithDigit (trim l))) := by
  unfold check_log_file_date
  rw [rustLines_unlines (by
    intro l hl
    rcases List.mem_cons.mp hl with h | h
    · rw [h]; exact not_newline_headerFor ht
    · exact hL l h)]
  rw [List.foldl_cons]
  have h1 : clfdStep (headerFor today) (false, 0) (headerFor today) = (true, 0) := by
    simp [clfdStep, containsSub_refl, startsWithDigit_trim_headerFor]
  rw [h1, clfd_count]
  simp

/-! ## Properties of the written entry lines -/

theorem entry_head_line_eq (n : Nat) (f : List Char) :
    natStr n ++ str ". " ++ f = natStr n ++ '.' :: (' ' :: f) := by
  simp [str, List.append_assoc]

theorem startsWithDigit_entry_head (n : Nat) (f : List Char) :
    startsWithDigit (trim (natStr n ++ str ". " ++ f)) = true := by
  rw [entry_head_line_eq]
  exact startsWithDigit_ordinal_line (natStr_ne_nil n) (natStr_digits n) _

theorem ordinal_entry_head (n : Nat) (f : List Char) :
    (trim (natStr n ++ str ". " ++ f)).takeWhile Char.isDigit = natStr n := by
  rw [entry_head_line_eq]
  exact takeWhile_ordinal_line (natStr_ne_nil n) (natStr_digits n) _

theorem msgOk_iff (m : List Char) :
    msgOk m = true ↔ ∀ l ∈ (formatLines m).tail, startsWithDigit (trim l) = false := by
  simp [msgOk]

theorem ordinals_append (L1 L2 : List (List Char)) :
    ordinals (L1 ++ L2) = ordinals L1 ++ ordinals L2 := by
  simp [ordinals, List.filter_append]

theorem ordinals_appendEntryLines {m : List Char} (n : Nat) (hok : msgOk m = true) :
    ordinals (appendEntryLines n m) = [natStr n] := by
  obtain ⟨f, fs, he⟩ := List.exists_cons_of_ne_nil (formatLines_ne_nil m)
  have hred : appendEntryLines n m
      = (natStr n ++ str ". " ++ f) :: fs.map (fun l => str "   " ++ l) := by
    unfold appendEntryLines
    rw [he]
  have h1 : ∀ l1 ∈ fs.map (fun l => str "   " ++ l),
      startsWithDigit (trim l1) = false := by
    intro l1 hl1
    obtain ⟨l, hl, rfl⟩ := List.mem_map.mp hl1
    rw [trim_indent]
    exact (msgOk_iff m).mp hok l (by rw [he]; simpa using hl)
  have hnil : List.filter (fun l => startsWithDigit (trim l))
      (fs.map (fun l => str "   " ++ l)) = [] :=
    List.filter_eq_nil_iff.mpr (by intro a ha; simp [h1 a ha])
  rw [hred]
  unfold ordinals
  rw [List.filter_cons, if_pos (startsWithDigit_entry_head n f), hnil]
  simp only [List.map_cons, List.map_nil]
  rw [ordinal_entry_head]

theorem natStr_one : natStr 1 = ['1'] := rfl

theorem create_head_line_eq (f : List Char) :
    str "1. " ++ f = natStr 1 ++ str ". " ++ f := rfl

theorem ordinals_createEntryLines {m : List Char} (hok : msgOk m = true) :
    ordinals (createEntryLines m) = [natStr 1] := by
  obtain ⟨f, fs, he⟩ := List.exists_cons_of_ne_nil (formatLines_ne_nil m)
  have hred : createEntryLines m = (str "1. " ++ f) :: fs := by
    unfold createEntryLines
    rw [he]
  have h1 : ∀ l ∈ fs, startsWithDigit (trim l) = false := by
    intro l hl
    exact (msgOk_iff m).mp hok l (by rw [he]; simpa using hl)
  have hnil : List.filter (fun l => startsWithDigit (trim l)) fs = [] :=
    List.filter_eq_nil_iff.mpr (by intro a ha; simp [h1 a ha])
  rw [hred]
  unfold ordinals
  rw [create_head_line_eq, List.filter_cons, if_pos (startsWithDigit_entry_head 1 f), hnil]
  simp only [List.map_cons, List.map_nil]
  rw [ordinal_entry_head]

theorem countP_eq_ordinals_length (L : List (List Char)) :
    L.countP (fun l => startsWithDigit (trim l)) = (ordinals L).length := by
  simp [ordinals, List.countP_eq_length_filter]

theorem not_newline_str_indent {l : List Char} (h : '\n' ∉ l) :
    '\n' ∉ str "   " ++ l := by
  intro hmem
  rcases List.mem_append.mp hmem with h1 | h1
  · exact absurd h1 (by decide)
  · exact h h1

theorem not_newline_entry_head (n : Nat) {f : List Char} (hf : '\n' ∉ f) :
    '\n' ∉ natStr n ++ str ". " ++ f := by
  intro hmem
  rcases List.mem_append.mp hmem with h1 | h1
  · rcases List.mem_append.mp h1 with h2 | h2
    · exact not_newline_natStr n h2
    · exact absurd h2 (by decide)
  · exact hf h1

theorem not_newline_appendEntryLines (n : Nat) (m : List Char) :
    ∀ l ∈ appendEntryLines n m, '\n' ∉ l := by
  obtain ⟨f, fs, he⟩ := List.exists_cons_of_ne_nil (formatLines_ne_nil m)
  unfold appendEntryLines
  rw [he]
  intro l hl
  rcases List.mem_cons.mp hl with h1 | h1
  · subst h1
    exact not_newline_entry_head n
      (not_newline_mem_formatLines m f (by rw [he]; simp))
  · obtain ⟨l0, hl0, rfl⟩ := List.mem_map.mp h1
    exact not_newline_str_indent
      (not_newline_mem_formatLines m l0 (by rw [he]; simp [hl0]))

theorem not_newline_createEntryLines (m : List Char) :
    ∀ l ∈ createEntryLines m, '\n' ∉ l := by
  obtain ⟨f, fs, he⟩ := List.exists_cons_of_ne_nil (formatLines_ne_nil m)
  unfold createEntryLines
  rw [he]
  intro l hl
  rcases List.mem_cons.mp hl with h1 | h1
  · subst h1
    rw [create_head_line_eq]
    exact not_newline_entry_head 1
      (not_newline_mem_formatLines m f (by rw [he]; simp))
  · exact not_newline_mem_formatLines m l (by rw [he]; simp [h1])

/-! ## The same-day invariant and its preservation -/

theorem check_of_inv {today : List Char} {k : Nat} {C : List Char}
    (ht : '\n' ∉ today) (h : Inv today k C) :
    check_log_file_date today C = (true, k) := by
  obtain ⟨L, hC, hnl, hord⟩ := h
  rw [hC, check_unlines today (([] : List Char) :: L) ht
    (by intro l hl; rcases List.mem_cons.mp hl with h1 | h1
        · subst h1; simp
        · exact hnl l h1)]
  rw [List.countP_cons, if_neg (by decide)]
  rw [countP_eq_ordinals_length, hord]
  simp

theorem inv_create {today m : List Char} (hok : msgOk m = true) :
    Inv today 1 (create_today_log_file today m) := by
  refine ⟨createEntryLines m, ?_, not_newline_createEntryLines m, ?_⟩
  · rw [create_eq_unlines]
    rfl
  · rw [ordinals_createEntryLines hok]
    simp [List.range_succ]

theorem inv_step {today : List Char} {k : Nat} {C m : List Char}
    (hok : msgOk m = true) (h : Inv today k C) :
    Inv today (k + 1) (C ++ append_entry_bytes (k + 1) m) := by
  obtain ⟨L, hC, hnl, hord⟩ := h
  refine ⟨L ++ appendEntryLines (k + 1) m, ?_, ?_, ?_⟩
  · rw [hC, append_eq_unlines, ← unlines_append]
    simp
  · intro l hl
    rcases List.mem_append.mp hl with h1 | h1
    · exact hnl l h1
    · exact not_newline_appendEntryLines (k + 1) m l h1
  · rw [ordinals_append, hord, ordinals_appendEntryLines (k + 1) hok, List.range_succ]
    simp

theorem update_same_day (today m C mm : List Char) (k : Nat)
    (hchk : check_log_file_date today C = (true, k)) :
    update_log_files today m ⟨some mm, some C⟩
      = ({ mainLog := some mm, todayLog := some (C ++ append_entry_bytes (k + 1) m) }, false) := by
  unfold update_log_files check_or_create_main_log_file update_today_log_file
  simp only [hchk]
  simp

theorem run_preserves {today : List Char} (ht : '\n' ∉ today) :
    ∀ (msgs : List (List Char)) (k : Nat) (C mm : List Char),
    (∀ m ∈ msgs, msgOk m = true) → Inv today k C →
    ∃ C2, run_entries today msgs ⟨some mm, some C⟩ = ⟨some mm, some C2⟩ ∧
      Inv today (k + msgs.length) C2 := by
  intro msgs
  induction msgs with
  | nil =>
    intro k C mm _ hinv
    exact ⟨C, rfl, by simpa using hinv⟩
  | cons m msgs ih =>
    intro k C mm hok hinv
    have hchk := check_of_inv ht hinv
    have hstep := update_same_day today m C mm k hchk
    have hrun : run_entries today (m :: msgs) ⟨some mm, some C⟩
        = run_entries today msgs (update_log_files today m ⟨some mm, some C⟩).1 := rfl
    rw [hrun, hstep]
    obtain ⟨C2, h2, hinv2⟩ := ih (k + 1) (C ++ append_entry_bytes (k + 1) m) mm
      (fun x hx => hok x (by simp [hx])) (inv_step (hok m (by simp)) hinv)
    refine ⟨C2, h2, ?_⟩
    have hlen : k + (m :: msgs).length = k + 1 + msgs.length := by
      simp [List.length_cons]
      omega
    rw [hlen]
    exact hinv2

/-! ## Small helpers about the entry point -/

theorem checkOrCreate_todayLog (fs : FS) :
    (check_or_create_main_log_file fs).todayLog = fs.todayLog := by
  rcases fs with ⟨a, b⟩
  cases a <;> rfl

theorem update_log_files_create (today m : List Char) (fs : FS)
    (hfs : fs.todayLog = none) :
    update_log_files today m fs
      = ({ check_or_create_main_log_file fs with
            todayLog := some (create_today_log_file today m) }, false) := by
  have h := checkOrCreate_todayLog fs
  rw [hfs] at h
  simp only [update_log_files, h]

/-! ## The claims -/

/-- C1: Rollover — when TodayLog exists and none of its lines matches
(contains) the header for `today`, `record_entry` leaves CumulativeLog
equal to its old content followed by one blank line and the old TodayLog
content verbatim, and TodayLog becomes exactly the header `## today`, a
blank line and the new message as ordinal entry `1.`. -/
theorem claim_C1_rollover (today m tc mc : List Char) (fs : FS)
    (htoday : fs.todayLog = some tc) (hmain : fs.mainLog = some mc)
    (hnomatch : ∀ l ∈ rustLines tc, ¬ (headerFor today <:+: l)) :
    (update_log_files today m fs).1 =
      { mainLog := some (mc ++ '\n' :: tc),
        todayLog := some (headerFor today ++ '\n' :: '\n' ::
          (str "1. " ++ format_commit_message_for_markdown m ++ ['\n'])) } := by
  rcases fs with ⟨fmain, ftoday⟩
  have h1 : fmain = some mc := hmain
  have h2 : ftoday = some tc := htoday
  subst h1
  subst h2
  have hfst : (check_log_file_date today tc).1 = false := by
    rw [check_fst_eq_any]
    refine List.any_eq_false.mpr ?_
    intro l hl
    simp only [Bool.not_eq_true]
    by_cases hc : containsSub (headerFor today) l = true
    · exact absurd ((containsSub_iff _ _).mp hc) (hnomatch l hl)
    · simpa using hc
  show (update_today_log_file today m ⟨some mc, some tc⟩).1 = _
  unfold update_today_log_file
  simp only [hfst]
  rfl

/-- Witness for C1 at the spec §8 scenario. -/
theorem claim_C1_rollover_witness :
    (∀ l ∈ rustLines (str "## 2024/01/15\n\n1. old\n"),
        ¬ (headerFor (str "2024/01/16") <:+: l)) ∧
    (update_log_files (str "2024/01/16") (str "new")
        ⟨some (str "# 开发日志\n"), some (str "## 2024/01/15\n\n1. old\n")⟩).1 =
      { mainLog := some (str "# 开发日志\n" ++ '\n' :: str "## 2024/01/15\n\n1. old\n"),
        todayLog := some (headerFor (str "2024/01/16") ++ '\n' :: '\n' ::
          (str "1. " ++ format_commit_message_for_markdown (str "new") ++ ['\n'])) } :=
  ⟨by decide,
   claim_C1_rollover (str "2024/01/16") (str "new") _ _ _ rfl rfl (by decide)⟩

/-- C5 counterexample: the scan reports a date match on a file none of
whose lines EQUALS the header line — containment suffices, equality is not
required, refuting the claim as stated. -/
theorem claim_C5_counterexample :
    (check_log_file_date (str "2024/01/15") (str "x## 2024/01/15\n")).1 = true ∧
    ∀ l ∈ rustLines (str "x## 2024/01/15\n"), l ≠ headerFor (str "2024/01/15") :=
  ⟨by decide, by decide⟩

/-- C5 amended: the scan reports a match if and only if some line of the
file CONTAINS `## {today}` as a substring (`str::contains`, not equality). -/
theorem claim_C5_amended (today content : List Char) :
    (check_log_file_date today content).1 = true ↔
      ∃ l ∈ rustLines content, headerFor today <:+: l := by
  rw [check_fst_eq_any, List.any_eq_true]
  constructor
  · rintro ⟨l, hl, hc⟩
    exact ⟨l, hl, (containsSub_iff _ _).mp hc⟩
  · rintro ⟨l, hl, hc⟩
    exact ⟨l, hl, (containsSub_iff _ _).mpr hc⟩

/-- C6: with no TodayLog present, a single-line message `m` produces a
TodayLog that is exactly `## {today}\n\n1. {m}\n`. -/
theorem claim_C6_fresh_single_line (today m : List Char) (fs : FS)
    (hm : m.contains '\n' = false) (hfs : fs.todayLog = none) :
    ((update_log_files today m fs).1).todayLog
      = some (str "## " ++ today ++ str "\n\n1. " ++ m ++ str "\n") := by
  rw [update_log_files_create today m fs hfs]
  have hfmt : format_commit_message_for_markdown m = m := by
    unfold format_commit_message_for_markdown
    rw [if_neg (by rw [hm]; simp)]
  show some (create_today_log_file today m) = _
  rw [create_today_log_file, hfmt]
  have e1 : str "\n\n1. " = '\n' :: '\n' :: str "1. " := rfl
  have e2 : str "\n" = ['\n'] := rfl
  rw [e1, e2, headerFor]
  simp [List.append_assoc]

/-- Witness for C6 at the spec §8 scenario. -/
theorem claim_C6_fresh_single_line_witness :
    (str "fix: bug").contains '\n' = false ∧
    ((update_log_files (str "2024/01/15") (str "fix: bug") ⟨none, none⟩).1).todayLog
      = some (str "## 2024/01/15\n\n1. fix: bug\n") := by
  refine ⟨by decide, ?_⟩
  have h := claim_C6_fresh_single_line (str "2024/01/15") (str "fix: bug")
    ⟨none, none⟩ (by decide) rfl
  rw [h]
  decide

/-- C7: the ensure-CumulativeLog-exists step creates the file with a single
header line when absent, leaves an existing file untouched, and is
idempotent. -/
theorem claim_C7_idempotent (fs : FS) :
    (fs.mainLog = none →
      check_or_create_main_log_file fs
        = { fs with mainLog := some (str "# 开发日志" ++ ['\n']) }) ∧
    (∀ c, fs.mainLog = some c → check_or_create_main_log_file fs = fs) ∧
    check_or_create_main_log_file (check_or_create_main_log_file fs)
      = check_or_create_main_log_file fs := by
  rcases fs with ⟨a, b⟩
  cases a with
  | none => exact ⟨fun _ => rfl, fun c hc => absurd hc (by simp), rfl⟩
  | some c0 => exact ⟨fun h => absurd h (by simp), fun c _ => rfl, rfl⟩

/-- Witness for C7: creation on an absent file, no-op on a present one,
and idempotence, at concrete states. -/
theorem claim_C7_idempotent_witness :
    check_or_create_main_log_file ⟨none, none⟩
      = { mainLog := some (str "# 开发日志" ++ ['\n']), todayLog := none } ∧
    check_or_create_main_log_file ⟨some (str "x"), none⟩ = ⟨some (str "x"), none⟩ ∧
    check_or_create_main_log_file (check_or_create_main_log_file ⟨none, none⟩)
      = check_or_create_main_log_file ⟨none, none⟩ :=
  ⟨(claim_C7_idempotent ⟨none, none⟩).1 rfl,
   (claim_C7_idempotent ⟨some (str "x"), none⟩).2.1 _ rfl,
   (claim_C7_idempotent ⟨none, none⟩).2.2⟩

/-- C10: through the public entry point `update_log_files`, the
copy-TodayLog-to-CumulativeLog fallback branch of `update_today_log_file`
is unreachable: the ensure step runs first, so the fallback flag is never
set, for any filesystem state, date and message. -/
theorem claim_C10_fallback_unreachable (today m : List Char) (fs : FS) :
    (update_log_files today m fs).2 = false := by
  rcases fs with ⟨a, b⟩
  cases a with
  | some mc =>
    cases b with
    | none => rfl
    | some tc =>
      show (update_today_log_file today m ⟨some mc, some tc⟩).2 = false
      unfold update_today_log_file
      by_cases hr : (check_log_file_date today tc).1 = true <;> simp [hr]
  | none =>
    cases b with
    | none => rfl
    | some tc =>
      show (update_today_log_file today m ⟨some mainLogHeader, some tc⟩).2 = false
      unfold update_today_log_file
      by_cases hr : (check_log_file_date today tc).1 = true <;> simp [hr]

/-- Helper: with no injected failures, the fallible entry point agrees
with the pure one. -/
theorem update_log_files_e_ok (today m : List Char) (fs : FS) :
    update_log_files_e today m fs none none none
      = .ok (update_log_files today m fs).1 := by
  unfold update_log_files_e update_log_files
  cases hT : (check_or_create_main_log_file fs).todayLog <;> simp [hT]

/-- C8: every injected filesystem failure inside `record_entry` comes back
to the caller wrapped with the context string of the step that failed, and
on such an error the orchestrator aborts: it attempts no `git commit` and
no `git push`, and returns the error wrapped once more with its own
context. -/
theorem claim_C8_error_propagation (ci hw pushF : Bool) (m today : List Char) (fs : FS)
    (f1 f2 f3 gc gp : Option String) (es : List String)
    (herr : update_log_files_e today (final_commit_message ci hw m) fs f1 f2 f3
      = .error es) :
    (∃ e, (es = [ctxMainLog, e] ∧ f1 = some e) ∨
          (es = [ctxCreateToday, e] ∧ f2 = some e) ∨
          (es = [ctxUpdateToday, e] ∧ f3 = some e)) ∧
    main_run ci hw pushF m today fs f1 f2 f3 gc gp
      = ([], .error (ctxUpdateLogs :: es)) := by
  constructor
  · unfold update_log_files_e at herr
    cases f1 with
    | some e =>
      have h2 : Except.error (α := FS) [ctxMainLog, e] = Except.error es := herr
      injection h2 with h3
      exact ⟨e, Or.inl ⟨h3.symm, rfl⟩⟩
    | none =>
      cases hT : (check_or_create_main_log_file fs).todayLog with
      | none =>
        simp only [hT] at herr
        cases f2 with
        | some e =>
          have h2 : Except.error (α := FS) [ctxCreateToday, e] = Except.error es := herr
          injection h2 with h3
          exact ⟨e, Or.inr (Or.inl ⟨h3.symm, rfl⟩)⟩
        | none => exact absurd herr (by simp)
      | some tc =>
        simp only [hT] at herr
        cases f3 with
        | some e =>
          have h2 : Except.error (α := FS) [ctxUpdateToday, e] = Except.error es := herr
          injection h2 with h3
          exact ⟨e, Or.inr (Or.inr ⟨h3.symm, rfl⟩)⟩
        | none => exact absurd herr (by simp)
  · unfold main_run
    simp only [herr]

/-- Witness for C8: a failure injected into the ensure-CumulativeLog step
aborts the run with the doubly wrapped context chain and no VCS action. -/
theorem claim_C8_error_propagation_witness :
    update_log_files_e (str "d") (final_commit_message true false (str "x"))
        ⟨none, none⟩ (some "disk full") none none
      = .error [ctxMainLog, "disk full"] ∧
    main_run true false true (str "x") (str "d") ⟨none, none⟩
        (some "disk full") none none none none
      = ([], .error (ctxUpdateLogs :: [ctxMainLog, "disk full"])) := by
  have h := claim_C8_error_propagation true false true (str "x") (str "d") ⟨none, none⟩
    (some "disk full") none none none none [ctxMainLog, "disk full"] rfl
  exact ⟨rfl, h.2⟩

/-- C9: the CI-skip marker ` [skip ci]` is appended to the commit message
exactly when CI is disabled and a workflow configuration was detected;
otherwise the message passes through unchanged; and one and the same final
message is handed to both the changelog manager and the VCS commit. -/
theorem claim_C9_skip_ci (ci hw : Bool) (m today : List Char) (fs : FS) :
    (ci = false → hw = true →
      final_commit_message ci hw m = m ++ str " [skip ci]") ∧
    ((ci = true ∨ hw = false) → final_commit_message ci hw m = m) ∧
    main_run ci hw true m today fs none none none none none
      = ([Action.commit (final_commit_message ci hw m), Action.push],
         .ok (update_log_files today (final_commit_message ci hw m) fs).1) := by
  refine ⟨?_, ?_, ?_⟩
  · rintro rfl rfl
    simp [final_commit_message]
  · rintro (rfl | rfl) <;> simp [final_commit_message]
  · unfold main_run
    simp only [update_log_files_e_ok]
    simp

/-- Witness for C9 at a concrete message and both flag settings. -/
theorem claim_C9_skip_ci_witness :
    final_commit_message false true (str "feat: x")
      = str "feat: x" ++ str " [skip ci]" ∧
    final_commit_message true true (str "feat: x") = str "feat: x" ∧
    main_run false true true (str "feat: x") (str "d") ⟨none, none⟩
        none none none none none
      = ([Action.commit (final_commit_message false true (str "feat: x")), Action.push],
         .ok (update_log_files (str "d")
           (final_commit_message false true (str "feat: x")) ⟨none, none⟩).1) := by
  have h1 := claim_C9_skip_ci false true (str "feat: x") (str "d") ⟨none, none⟩
  have h2 := claim_C9_skip_ci true true (str "feat: x") (str "d") ⟨none, none⟩
  exact ⟨h1.1 rfl rfl, h2.2.1 (Or.inl rfl), h1.2.2⟩

/-- C3 is violated by the code: for the two-line message `"a\nb"` the
create path writes the continuation line without the three-space indent,
while the append path (same ordinal 1) indents it — the written bytes are
NOT the same function of (N, message) in both paths. -/
theorem claim_C3_divergence :
    create_today_log_file (str "2024/01/15") (str "a\nb")
      = str "## 2024/01/15\n\n1. a\nb\n" ∧
    str "1. " ++ format_commit_message_for_markdown (str "a\nb") ++ ['\n']
      = str "1. a\nb\n" ∧
    append_entry_bytes 1 (str "a\nb") = str "1. a\n   b\n" ∧
    str "1. a\nb\n" ≠ str "1. a\n   b\n" :=
  ⟨by decide, by decide, by decide, by decide⟩

/-- C4 is violated by the code: for the message `"a\n1b"` the create path
writes the continuation line `1b` verbatim at column 0 — it starts with a
decimal digit — and the scan of the resulting one-entry TodayLog then
counts 2 top-level entries.  Moreover the scan trims each line, so even an
indented digit-initial continuation line (append path) is counted. -/
theorem claim_C4_divergence :
    create_today_log_file (str "2024/01/15") (str "a\n1b")
      = str "## 2024/01/15\n\n1. a\n1b\n" ∧
    rustLines (create_today_log_file (str "2024/01/15") (str "a\n1b"))
      = [str "## 2024/01/15", [], str "1. a", str "1b"] ∧
    startsWithDigit (str "1b") = true ∧
    check_log_file_date (str "2024/01/15")
        (create_today_log_file (str "2024/01/15") (str "a\n1b"))
      = (true, 2) ∧
    startsWithDigit (trim (str "   1b")) = true :=
  ⟨by decide, by decide, by decide, by decide, by decide⟩

/-- C2 fails as stated: after N = 1 call with the message `"a\n1b"` the
TodayLog contains 2 (not 1) lines whose trimmed form starts with a decimal
digit, because the create path writes the digit-initial continuation line
unindented. -/
theorem claim_C2_counterexample :
    ((rustLines ((run_entries (str "2024/01/15") [str "a\n1b"]
          ⟨some (str "# 开发日志\n"), none⟩).todayLog.getD [])).filter
        (fun l => startsWithDigit (trim l))).length = 2 ∧ (2 : Nat) ≠ 1 :=
  ⟨by decide, by decide⟩

/-- C2 amended: restricted to scan-safe messages — messages none of whose
formatted continuation lines starts (after trimming) with a decimal digit
— and to newline-free dates: starting with no TodayLog, after N ≥ 1
same-day calls the TodayLog scan finds the date header and exactly N
top-level ordinal entries, and the entry ordinals read `1`, …, `N` in call
order (each new entry is numbered one plus the scan count before the
call, by `update_today_log_file`). -/
theorem claim_C2_amended (today : List Char) (msgs : List (List Char))
    (mc : Option (List Char)) (ht : '\n' ∉ today) (hne : msgs ≠ [])
    (hok : ∀ m ∈ msgs, msgOk m = true) :
    ∃ C, (run_entries today msgs ⟨mc, none⟩).todayLog = some C ∧
      check_log_file_date today C = (true, msgs.length) ∧
      ordinals (rustLines C) = (List.range msgs.length).map (fun i => natStr (i + 1)) := by
  obtain ⟨m, msgs0, rfl⟩ := List.exists_cons_of_ne_nil hne
  have h1 : run_entries today (m :: msgs0) ⟨mc, none⟩
      = run_entries today msgs0 (update_log_files today m ⟨mc, none⟩).1 := rfl
  have hcreate : (update_log_files today m ⟨mc, none⟩).1
      = ⟨(check_or_create_main_log_file ⟨mc, none⟩).mainLog,
         some (create_today_log_file today m)⟩ := by
    rw [update_log_files_create today m _ rfl]
  obtain ⟨mm, hmm⟩ : ∃ mm, (check_or_create_main_log_file ⟨mc, none⟩).mainLog = some mm := by
    cases mc with
    | none => exact ⟨mainLogHeader, rfl⟩
    | some c => exact ⟨c, rfl⟩
  have hinv1 : Inv today 1 (create_today_log_file today m) :=
    inv_create (hok m (by simp))
  obtain ⟨C2, hrunEq, hinv⟩ := run_preserves ht msgs0 1 (create_today_log_file today m) mm
    (fun x hx => hok x (by simp [hx])) hinv1
  have hC2 : run_entries today (m :: msgs0) ⟨mc, none⟩ = ⟨some mm, some C2⟩ := by
    rw [h1, hcreate, hmm, hrunEq]
  have hlen : (m :: msgs0).length = 1 + msgs0.length := by
    simp [List.length_cons, Nat.add_comm]
  refine ⟨C2, by rw [hC2], ?_, ?_⟩
  · rw [hlen]
    exact check_of_inv ht hinv
  · obtain ⟨L, hC, hnl, hord⟩ := hinv
    rw [hC, rustLines_unlines (by
      intro l hl
      rcases List.mem_cons.mp hl with h | h
      · rw [h]; exact not_newline_headerFor ht
      · rcases List.mem_cons.mp h with h0 | h0
        · rw [h0]; simp
        · exact hnl l h0)]
    have hskip : ordinals (headerFor today :: ([] : List Char) :: L) = ordinals L := by
      unfold ordinals
      rw [List.filter_cons, if_neg (by simp [startsWithDigit_trim_headerFor]),
        List.filter_cons, if_neg (by decide)]
    rw [hskip, hord, hlen]

/-- Witness for C2 amended: two same-day calls, the second with a
multi-line message, yield a scan of `(true, 2)` and ordinals `1`, `2`. -/
theorem claim_C2_amended_witness :
    ('\n' ∉ str "2024/01/15") ∧
    ([str "a", str "b\nc"] ≠ ([] : List (List Char))) ∧
    (∀ m ∈ [str "a", str "b\nc"], msgOk m = true) ∧
    ∃ C, (run_entries (str "2024/01/15") [str "a", str "b\nc"]
        ⟨none, none⟩).todayLog = some C ∧
      check_log_file_date (str "2024/01/15") C = (true, 2) ∧
      ordinals (rustLines C) = [natStr 1, natStr 2] := by
  refine ⟨by decide, by decide, by decide, ?_⟩
  obtain ⟨C, h1, h2, h3⟩ := claim_C2_amended (str "2024/01/15") [str "a", str "b\nc"]
    none (by decide) (by decide) (by decide)
  exact ⟨C, h1, h2, by rw [h3]; decide⟩

end OGit
